import Mathlib

/-!
# copy-to-image

A shallow embedding of `cmd/copy-to-image/copy-to-image.go`: the program copies a host
file into an existing tagged image by running a throwaway container and committing it
over the original tag.

The container engine (`github.com/fsouza/go-dockerclient`) is an external collaborator.
It is modelled by a record of response functions (`Engine`); `main` threads the list of
engine operations it invokes (`Outcome.calls`), the lines it prints (`Outcome.stdout`)
and the process exit status (`Outcome.status`).

Go strings are byte strings.  They are modelled by `List Char`: every string operation
of the program compares against the ASCII bytes `:`, `/` and `.` only, which never occur
inside a multi-byte UTF-8 sequence.
-/

namespace CopyToImage

/-- A Go `string`. -/
abbrev Str := List Char

/-! ## `strings.Split` (Go standard library), for a one-byte separator

The standard library is not part of the repository; `Split`, `Join` and `Clean` are
translated from the Go sources of packages `strings` and `path`. -/

/-- Go `strings.Index(s, sep)` for a one-byte `sep`: the position of the first
occurrence, `none` for Go's `-1`. -/
def Index : Str → Char → Option Nat
  | [], _ => none
  | c :: s, sep => if c = sep then some 0 else (Index s sep).map (· + 1)

/-- Go `strings.Count(s, sep)` for a one-byte `sep`. -/
def Count (s : Str) (sep : Char) : Nat := s.count sep

/-- The loop of Go `genSplit(s, sep, 0, n)`; the first argument is the number `n-1` of
iterations left: `m := Index(s, sep); if m < 0 break; a[i] = s[:m]; s = s[m+len(sep):]`,
and after the loop `a[i] = s`. -/
def genSplit (sep : Char) : Nat → Str → List Str
  | 0, s => [s]
  | k + 1, s =>
    match Index s sep with
    | none => [s]
    | some m => s.take m :: genSplit sep k (s.drop (m + 1))

/-- Go `strings.Split(s, sep)`: `genSplit` with `n = Count(s, sep) + 1`. -/
def Split (s : Str) (sep : Char) : List Str := genSplit sep (Count s sep) s

/-! ## `path.Join` and `path.Clean` (Go standard library) -/

/-- Go `lazybuf` of package `path`, by its contents: `buf` holds the bytes written so
far and `w` is the index of the next byte to write.  Bytes at positions `≥ w` are stale
and are overwritten by the next `append`. -/
structure lazybuf where
  buf : List Char
  w : Nat
deriving DecidableEq, Repr

/-- Go `(*lazybuf).index`. -/
def lazybuf.index (b : lazybuf) (i : Nat) : Char := b.buf.getD i (Char.ofNat 0)

/-- Go `(*lazybuf).append`: `buf[w] = c; w++`. -/
def lazybuf.append (b : lazybuf) (c : Char) : lazybuf := ⟨b.buf.take b.w ++ [c], b.w + 1⟩

/-- Go `(*lazybuf).string`: `buf[:w]`. -/
def lazybuf.string (b : lazybuf) : Str := b.buf.take b.w

/-- The copy loop of `Clean`: `for ; r < n && path[r] != '/'; r++ { out.append(path[r]) }`.
Takes the unread input `path[r:]`, returns the input left and the buffer. -/
def copyElem : Str → lazybuf → Str × lazybuf
  | [], out => ([], out)
  | c :: rest, out => if c = '/' then (c :: rest, out) else copyElem rest (out.append c)

/-- The backtracking loop of `Clean`:
`for out.w > dotdot && out.index(out.w) != '/' { out.w-- }`, as a function of `out.w`. -/
def backtrack (out : lazybuf) (dotdot : Nat) : Nat → Nat
  | 0 => 0
  | w + 1 =>
    if w + 1 > dotdot ∧ out.index (w + 1) ≠ '/' then backtrack out dotdot w else w + 1

/-- The main loop `for r < n { switch ... }` of `Clean`.  Arguments: fuel (every
iteration consumes at least one byte, so `len(path)` suffices), the unread input
`path[r:]`, the output buffer and `dotdot`. -/
def cleanLoop (rooted : Bool) : Nat → Str → lazybuf → Nat → lazybuf
  | 0, _, out, _ => out
  | _ + 1, [], out, _ => out
  | fuel + 1, c :: rest, out, dotdot =>
    if c = '/' then
      -- empty path element
      cleanLoop rooted fuel rest out dotdot
    else if c = '.' ∧ (rest = [] ∨ rest.head? = some '/') then
      -- . element
      cleanLoop rooted fuel rest out dotdot
    else if c = '.' ∧ rest.head? = some '.' ∧
        (rest.tail = [] ∨ rest.tail.head? = some '/') then
      -- .. element: remove to last /
      if out.w > dotdot then
        -- can backtrack
        cleanLoop rooted fuel rest.tail ⟨out.buf, backtrack out dotdot (out.w - 1)⟩ dotdot
      else if rooted = false then
        -- cannot backtrack, but not rooted, so append .. element
        let out1 := if out.w > 0 then out.append '/' else out
        let out2 := (out1.append '.').append '.'
        cleanLoop rooted fuel rest.tail out2 out2.w
      else
        cleanLoop rooted fuel rest.tail out dotdot
    else
      -- real path element: add slash if needed, copy element
      let out1 :=
        if (rooted = true ∧ out.w ≠ 1) ∨ (rooted = false ∧ out.w ≠ 0) then out.append '/'
        else out
      let r := copyElem (c :: rest) out1
      cleanLoop rooted fuel r.1 r.2 dotdot

/-- Go `path.Clean`. -/
def Clean (path : Str) : Str :=
  if path = [] then ['.']
  else
    let rooted : Bool := path.head? = some '/'
    let out0 : lazybuf := ⟨[], 0⟩
    let out :=
      if rooted then cleanLoop rooted path.length path.tail (out0.append '/') 1
      else cleanLoop rooted path.length path out0 0
    -- Turn empty string into "."
    if out.w = 0 then ['.'] else out.string

/-- Go `path.Join`: empty elements are skipped, the others are joined with slashes and
the result is cleaned; it is empty when every element is empty. -/
def Join (elem : List Str) : Str :=
  let size := (elem.map List.length).sum
  if size = 0 then []
  else
    let buf := elem.foldl
      (fun (buf : Str) (e : Str) =>
        if buf.length > 0 ∨ e ≠ [] then
          (if buf.length > 0 then buf ++ ['/'] else buf) ++ e
        else buf) []
    Clean buf

/-! ## The engine client's data types (`go-dockerclient`) -/

/-- Go `docker.Config`, the run configuration.  The program names three fields; `other`
stands for all the remaining ones (environment, labels, command, ...), of a type `ρ`
left open.  `Entrypoint` is a Go slice: `none` is the nil slice, `some []` an empty
non-nil one. -/
structure Config (ρ : Type) where
  User : Str
  Image : Str
  Entrypoint : Option (List Str)
  other : ρ
deriving DecidableEq, Repr

/-- Go `docker.HostConfig`, of which the program sets `Binds` only. -/
structure HostConfig where
  Binds : List Str
deriving DecidableEq, Repr

/-- Go `docker.CreateContainerOptions`; both pointers are always set by the program. -/
structure CreateContainerOptions (ρ : Type) where
  Config : Config ρ
  HostConfig : HostConfig
deriving DecidableEq, Repr

/-- Go `docker.Container`, of which the program reads `ID` only. -/
structure Container where
  ID : Str
deriving DecidableEq, Repr

/-- Modelled from the spec: the declaration of `docker.Image` belongs to the engine
client library and is not in the repository.  The specification has inspect-image return
"metadata-with-run-config", so the metadata carries a run configuration, which `main`
reads and hands to the commit (in the library the field is a pointer; metadata without a
configuration is outside this model).  `ID` is the only other field the program reads. -/
structure Image (ρ : Type) where
  ID : Str
  Config : Config ρ
deriving DecidableEq, Repr

/-- Go `docker.CommitContainerOptions`. -/
structure CommitContainerOptions (ρ : Type) where
  Container : Str
  Repository : Str
  Tag : Str
  Run : Config ρ
deriving DecidableEq, Repr

/-- Go `docker.RemoveContainerOptions`. -/
structure RemoveContainerOptions where
  ID : Str
deriving DecidableEq, Repr

/-- A Go `error` value, by its message. -/
abbrev Err := Str

/-- The container engine as the program sees it: the result of each client operation as
a function of its arguments.  Every operation is invoked at most once in a run, so this
covers any engine behaviour. -/
structure Engine (ρ : Type) where
  NewClient : Str → Except Err Unit
  InspectImage : Str → Except Err (Image ρ)
  CreateContainer : CreateContainerOptions ρ → Except Err Container
  StartContainer : Str → Except Err Unit
  WaitContainer : Str → Except Err Int
  CommitContainer : CommitContainerOptions ρ → Except Err (Image ρ)
  RemoveContainer : RemoveContainerOptions → Except Err Unit

/-- An engine operation invoked by the program, with its arguments. -/
inductive Call (ρ : Type) where
  | NewClient (endpoint : Str)
  | InspectImage (name : Str)
  | CreateContainer (opts : CreateContainerOptions ρ)
  | StartContainer (id : Str)
  | WaitContainer (id : Str)
  | CommitContainer (opts : CommitContainerOptions ρ)
  | RemoveContainer (opts : RemoveContainerOptions)
deriving DecidableEq, Repr

/-- The kind of an engine operation. -/
inductive Op where
  | connect | inspect | create | start | wait | commit | remove
deriving DecidableEq, Repr

/-- The kind of a call. -/
def Call.op {ρ : Type} : Call ρ → Op
  | .NewClient _ => .connect
  | .InspectImage _ => .inspect
  | .CreateContainer _ => .create
  | .StartContainer _ => .start
  | .WaitContainer _ => .wait
  | .CommitContainer _ => .commit
  | .RemoveContainer _ => .remove

/-- A line printed by the program: one constructor per `fmt.Println`/`fmt.Printf`
statement, with the values it formats. -/
inductive Msg where
  | imageRequired
  | srcRequired
  | destRequired
  | imageFormat
  | errorConnecting (err : Err)
  | copying (src image dest : Str)
  | errorInspecting (image : Str) (err : Err)
  | errorCreating (err : Err)
  | errorStarting (err : Err)
  | waitFailed (err : Err)
  | containerExited (rc : Int)
  | createdContainer (id : Str)
  | errorCommitting (err : Err)
  | committed (image newImageID : Str)
  | errorRemoving (err : Err)
deriving DecidableEq, Repr

/-- The command line after `flag.Parse()`. -/
structure Request where
  image : Str
  src : Str
  dest : Str
  useZ : Bool
  cp : Str
deriving DecidableEq, Repr

/-- What a run of the program does: its exit status, the engine operations it invoked in
order, and what it printed. -/
structure Outcome (ρ : Type) where
  status : Nat
  calls : List (Call ρ)
  stdout : List Msg
deriving DecidableEq, Repr

/-- The fixed staging root inside the container. -/
def stageRoot : Str := "/var/copy-to-image".toList

/-- The engine endpoint. -/
def endpoint : Str := "unix:///var/run/docker.sock".toList

/-- Lines 58-62: the staging path `tempDest`. -/
def tempDest (dest : Str) : Str := Join [stageRoot, dest]

/-- Lines 59-62: the bind-mount string. -/
def bind (src dest : Str) (useZ : Bool) : Str :=
  if useZ then src ++ ":".toList ++ tempDest dest ++ ":z".toList
  else src ++ ":".toList ++ tempDest dest

/-- Lines 63-72: the options passed to `client.CreateContainer`; the fields of
`docker.Config` that the program does not set have Go's zero value. -/
def createOptions {ρ : Type} [Inhabited ρ] (req : Request) : CreateContainerOptions ρ :=
  { Config :=
      { User := "root".toList
        Image := req.image
        Entrypoint := some [req.cp, "-v".toList, tempDest req.dest, req.dest]
        other := default }
    HostConfig := { Binds := [bind req.src req.dest req.useZ] } }

/-- Lines 94-96: `if len(origImage.Config.Entrypoint) == 0 { ... = []string{} }`. -/
def normalizeEntrypoint {ρ : Type} (cfg : Config ρ) : Config ρ :=
  if (cfg.Entrypoint.getD []).length = 0 then { cfg with Entrypoint := some [] } else cfg

/-- The program `main`, lines 25-112, after flag parsing.  `os.Exit(k)` ends the run with
status `k`; falling off the end of `main` is status 0. -/
def main {ρ : Type} [Inhabited ρ] (req : Request) (eng : Engine ρ) : Outcome ρ :=
  if req.image.length = 0 then ⟨1, [], [.imageRequired]⟩
  else if req.src.length = 0 then ⟨1, [], [.srcRequired]⟩
  else if req.dest.length = 0 then ⟨1, [], [.destRequired]⟩
  else
    let tokens := Split req.image ':'
    if tokens.length ≠ 2 then ⟨1, [], [.imageFormat]⟩
    else
      let repo := tokens.getD 0 []
      let tag := tokens.getD 1 []
      let c1 : List (Call ρ) := [.NewClient endpoint]
      match eng.NewClient endpoint with
      | .error err => ⟨1, c1, [.errorConnecting err]⟩
      | .ok _ =>
        let p1 : List Msg := [.copying req.src req.image req.dest]
        let c2 := c1 ++ [.InspectImage req.image]
        match eng.InspectImage req.image with
        | .error err => ⟨1, c2, p1 ++ [.errorInspecting req.image err]⟩
        | .ok origImage =>
          let c3 := c2 ++ [.CreateContainer (createOptions req)]
          match eng.CreateContainer (createOptions req) with
          | .error err => ⟨2, c3, p1 ++ [.errorCreating err]⟩
          | .ok container =>
            let c4 := c3 ++ [.StartContainer container.ID]
            match eng.StartContainer container.ID with
            | .error err => ⟨1, c4, p1 ++ [.errorStarting err]⟩
            | .ok _ =>
              let c5 := c4 ++ [.WaitContainer container.ID]
              match eng.WaitContainer container.ID with
              | .error err => ⟨1, c5, p1 ++ [.waitFailed err]⟩
              | .ok rc =>
                if rc ≠ 0 then ⟨1, c5, p1 ++ [.containerExited rc]⟩
                else
                  let p2 := p1 ++ [.createdContainer container.ID]
                  let opts : CommitContainerOptions ρ :=
                    { Container := container.ID
                      Repository := repo
                      Tag := tag
                      Run := normalizeEntrypoint origImage.Config }
                  let c6 := c5 ++ [.CommitContainer opts]
                  match eng.CommitContainer opts with
                  | .error err => ⟨1, c6, p2 ++ [.errorCommitting err]⟩
                  | .ok newImage =>
                    let p3 := p2 ++ [.committed req.image newImage.ID]
                    let ropts : RemoveContainerOptions := { ID := container.ID }
                    let c7 := c6 ++ [.RemoveContainer ropts]
                    match eng.RemoveContainer ropts with
                    | .error err => ⟨0, c7, p3 ++ [.errorRemoving err]⟩
                    | .ok _ => ⟨0, c7, p3⟩

/-! ## Vocabulary of the statements -/

/-- The request passes the validation of lines 25-41. -/
def Request.valid (req : Request) : Prop :=
  req.image ≠ [] ∧ req.src ≠ [] ∧ req.dest ≠ [] ∧ (Split req.image ':').length = 2

instance (req : Request) : Decidable req.valid := by
  unfold Request.valid; exact inferInstance

/-- The engine's answer to a call aborts the run: the operation returns an error, or the
wait reports a non-zero exit code.  A failing removal does not count. -/
def Engine.fails {ρ : Type} (eng : Engine ρ) : Call ρ → Bool
  | .NewClient e => !(eng.NewClient e).toBool
  | .InspectImage n => !(eng.InspectImage n).toBool
  | .CreateContainer o => !(eng.CreateContainer o).toBool
  | .StartContainer i => !(eng.StartContainer i).toBool
  | .WaitContainer i =>
    match eng.WaitContainer i with
    | .error _ => true
    | .ok rc => rc != 0
  | .CommitContainer o => !(eng.CommitContainer o).toBool
  | .RemoveContainer _ => false

/-! ## Sample runs -/

/-- A sample image configuration: nil entrypoint. -/
def sampleConfig : Config Nat :=
  { User := "app".toList, Image := "".toList, Entrypoint := none, other := 7 }

/-- An engine on which every operation succeeds and the container exits with 0. -/
def engineOK : Engine Nat :=
  { NewClient := fun _ => .ok ()
    InspectImage := fun _ => .ok { ID := "img0".toList, Config := sampleConfig }
    CreateContainer := fun _ => .ok { ID := "c0".toList }
    StartContainer := fun _ => .ok ()
    WaitContainer := fun _ => .ok 0
    CommitContainer := fun o => .ok { ID := "img1".toList, Config := o.Run }
    RemoveContainer := fun _ => .ok () }

/-- As `engineOK`, but the container cannot be started. -/
def engineStartFails : Engine Nat :=
  { engineOK with StartContainer := fun _ => .error "cannot start".toList }

/-- As `engineOK`, but the copy utility exits with status 1. -/
def engineCopyFails : Engine Nat :=
  { engineOK with WaitContainer := fun _ => .ok 1 }

/-- As `engineOK`, but the container cannot be removed. -/
def engineRemoveFails : Engine Nat :=
  { engineOK with RemoveContainer := fun _ => .error "busy".toList }

/-- The end-to-end scenario of the specification. -/
def sampleRequest : Request :=
  { image := "app:v1".toList
    src := "/host/bin/tool".toList
    dest := "/usr/local/bin/tool".toList
    useZ := false
    cp := "/bin/cp".toList }

/-! ## Lexical path resolution, to state what `path.Join` computes -/

/-- The components of a slash-separated path, in order: its maximal runs of bytes other
than `/`.  `cur` is the component being read. -/
def componentsAux : Str → Str → List Str
  | cur, [] => if cur = [] then [] else [cur]
  | cur, c :: s =>
    if c = '/' then
      (if cur = [] then componentsAux [] s else cur :: componentsAux [] s)
    else componentsAux (cur ++ [c]) s

/-- The components of a slash-separated path; repeated, leading and trailing slashes
yield no component. -/
def components (s : Str) : List Str := componentsAux [] s

/-- Lexical resolution of components against a stack of directory names, never rising
above the root: `.` is dropped, `..` removes the name before it, any other component is
added. -/
def resolve : List Str → List Str → List Str
  | stack, [] => stack
  | stack, seg :: segs =>
    if seg = ['.'] then resolve stack segs
    else if seg = ['.', '.'] then resolve stack.dropLast segs
    else resolve (stack ++ [seg]) segs

/-- The rooted path with the given components: `/` alone when there is none, else each
component preceded by a slash. -/
def render (stack : List Str) : Str :=
  if stack = [] then ['/'] else stack.flatMap (fun s => '/' :: s)

/-! ## Facts about `Split` -/

theorem Index_none_iff (s : Str) (sep : Char) : Index s sep = none ↔ Count s sep = 0 := by
  induction s with
  | nil => simp [Index, Count]
  | cons c s ih =>
    unfold Index
    by_cases h : c = sep
    · subst h; simp [Count]
    · simp only [h, if_false, Option.map_eq_none']
      rw [ih]
      simp [Count, List.count_cons, h]

theorem Index_some (s : Str) (sep : Char) (m : Nat) (h : Index s sep = some m) :
    s = s.take m ++ sep :: s.drop (m + 1) ∧ Count (s.take m) sep = 0 ∧
      Count s sep = Count (s.drop (m + 1)) sep + 1 := by
  induction s generalizing m with
  | nil => simp [Index] at h
  | cons c s ih =>
    unfold Index at h
    by_cases hc : c = sep
    · subst hc
      simp at h
      subst h
      simp [Count]
    · simp only [hc, if_false, Option.map_eq_some'] at h
      obtain ⟨k, hk, rfl⟩ := h
      obtain ⟨h1, h2, h3⟩ := ih k hk
      refine ⟨?_, ?_, ?_⟩
      · simp only [List.take_succ_cons, List.drop_succ_cons, List.cons_append]
        rw [← h1]
      · simpa [Count, List.count_cons, hc] using h2
      · simpa [Count, List.count_cons, hc] using h3

theorem genSplit_length (sep : Char) (k : Nat) (s : Str) (h : Count s sep = k) :
    (genSplit sep k s).length = k + 1 := by
  induction k generalizing s with
  | zero => simp [genSplit]
  | succ k ih =>
    unfold genSplit
    cases hi : Index s sep with
    | none =>
      rw [Index_none_iff] at hi
      omega
    | some m =>
      obtain ⟨_, _, h3⟩ := Index_some s sep m hi
      simp only [List.length_cons]
      rw [ih]
      omega

theorem Split_length (s : Str) (sep : Char) : (Split s sep).length = s.count sep + 1 :=
  genSplit_length sep _ s rfl

theorem Split_two (s : Str) (sep : Char) (h : (Split s sep).length = 2) :
    s = (Split s sep).getD 0 [] ++ sep :: (Split s sep).getD 1 [] ∧
      ((Split s sep).getD 0 []).count sep = 0 ∧ ((Split s sep).getD 1 []).count sep = 0 ∧
      Split s sep = [(Split s sep).getD 0 [], (Split s sep).getD 1 []] := by
  have hc : Count s sep = 1 := by
    have := Split_length s sep
    simp only [Count]; omega
  unfold Split
  rw [hc]
  unfold genSplit
  cases hi : Index s sep with
  | none =>
    rw [Index_none_iff] at hi
    omega
  | some m =>
    obtain ⟨h1, h2, h3⟩ := Index_some s sep m hi
    simp only [genSplit, List.getD_cons_zero, List.getD_cons_succ]
    refine ⟨h1, by simpa [Count] using h2, ?_, trivial⟩
    simp only [Count] at h3 hc ⊢
    omega

/-! ## Facts about `main` -/

/-- The nine ways a run on a valid request can go, each with its outcome. -/
theorem main_paths {ρ : Type} [Inhabited ρ] (req : Request) (eng : Engine ρ)
    (hv : req.valid) :
    (∃ err, eng.NewClient endpoint = .error err ∧
      main req eng = ⟨1, [.NewClient endpoint], [.errorConnecting err]⟩) ∨
    (∃ err, eng.NewClient endpoint = .ok () ∧ eng.InspectImage req.image = .error err ∧
      main req eng = ⟨1, [.NewClient endpoint, .InspectImage req.image],
        [.copying req.src req.image req.dest, .errorInspecting req.image err]⟩) ∨
    (∃ img err, eng.NewClient endpoint = .ok () ∧ eng.InspectImage req.image = .ok img ∧
      eng.CreateContainer (createOptions req) = .error err ∧
      main req eng = ⟨2, [.NewClient endpoint, .InspectImage req.image,
          .CreateContainer (createOptions req)],
        [.copying req.src req.image req.dest, .errorCreating err]⟩) ∨
    (∃ img c err, eng.NewClient endpoint = .ok () ∧ eng.InspectImage req.image = .ok img ∧
      eng.CreateContainer (createOptions req) = .ok c ∧
      eng.StartContainer c.ID = .error err ∧
      main req eng = ⟨1, [.NewClient endpoint, .InspectImage req.image,
          .CreateContainer (createOptions req), .StartContainer c.ID],
        [.copying req.src req.image req.dest, .errorStarting err]⟩) ∨
    (∃ img c err, eng.NewClient endpoint = .ok () ∧ eng.InspectImage req.image = .ok img ∧
      eng.CreateContainer (createOptions req) = .ok c ∧
      eng.StartContainer c.ID = .ok () ∧ eng.WaitContainer c.ID = .error err ∧
      main req eng = ⟨1, [.NewClient endpoint, .InspectImage req.image,
          .CreateContainer (createOptions req), .StartContainer c.ID, .WaitContainer c.ID],
        [.copying req.src req.image req.dest, .waitFailed err]⟩) ∨
    (∃ img c rc, eng.NewClient endpoint = .ok () ∧ eng.InspectImage req.image = .ok img ∧
      eng.CreateContainer (createOptions req) = .ok c ∧
      eng.StartContainer c.ID = .ok () ∧ eng.WaitContainer c.ID = .ok rc ∧ rc ≠ 0 ∧
      main req eng = ⟨1, [.NewClient endpoint, .InspectImage req.image,
          .CreateContainer (createOptions req), .StartContainer c.ID, .WaitContainer c.ID],
        [.copying req.src req.image req.dest, .containerExited rc]⟩) ∨
    (∃ img c opts err, eng.NewClient endpoint = .ok () ∧
      eng.InspectImage req.image = .ok img ∧
      eng.CreateContainer (createOptions req) = .ok c ∧
      eng.StartContainer c.ID = .ok () ∧ eng.WaitContainer c.ID = .ok 0 ∧
      opts = ⟨c.ID, (Split req.image ':').getD 0 [], (Split req.image ':').getD 1 [],
        normalizeEntrypoint img.Config⟩ ∧
      eng.CommitContainer opts = .error err ∧
      main req eng = ⟨1, [.NewClient endpoint, .InspectImage req.image,
          .CreateContainer (createOptions req), .StartContainer c.ID, .WaitContainer c.ID,
          .CommitContainer opts],
        [.copying req.src req.image req.dest, .createdContainer c.ID,
          .errorCommitting err]⟩) ∨
    (∃ img c opts newImage err, eng.NewClient endpoint = .ok () ∧
      eng.InspectImage req.image = .ok img ∧
      eng.CreateContainer (createOptions req) = .ok c ∧
      eng.StartContainer c.ID = .ok () ∧ eng.WaitContainer c.ID = .ok 0 ∧
      opts = ⟨c.ID, (Split req.image ':').getD 0 [], (Split req.image ':').getD 1 [],
        normalizeEntrypoint img.Config⟩ ∧
      eng.CommitContainer opts = .ok newImage ∧
      eng.RemoveContainer ⟨c.ID⟩ = .error err ∧
      main req eng = ⟨0, [.NewClient endpoint, .InspectImage req.image,
          .CreateContainer (createOptions req), .StartContainer c.ID, .WaitContainer c.ID,
          .CommitContainer opts, .RemoveContainer ⟨c.ID⟩],
        [.copying req.src req.image req.dest, .createdContainer c.ID,
          .committed req.image newImage.ID, .errorRemoving err]⟩) ∨
    (∃ img c opts newImage, eng.NewClient endpoint = .ok () ∧
      eng.InspectImage req.image = .ok img ∧
      eng.CreateContainer (createOptions req) = .ok c ∧
      eng.StartContainer c.ID = .ok () ∧ eng.WaitContainer c.ID = .ok 0 ∧
      opts = ⟨c.ID, (Split req.image ':').getD 0 [], (Split req.image ':').getD 1 [],
        normalizeEntrypoint img.Config⟩ ∧
      eng.CommitContainer opts = .ok newImage ∧
      eng.RemoveContainer ⟨c.ID⟩ = .ok () ∧
      main req eng = ⟨0, [.NewClient endpoint, .InspectImage req.image,
          .CreateContainer (createOptions req), .StartContainer c.ID, .WaitContainer c.ID,
          .CommitContainer opts, .RemoveContainer ⟨c.ID⟩],
        [.copying req.src req.image req.dest, .createdContainer c.ID,
          .committed req.image newImage.ID]⟩) := by
  obtain ⟨h1, h2, h3, h4⟩ := hv
  have l1 : ¬ req.image.length = 0 := by simpa using h1
  have l2 : ¬ req.src.length = 0 := by simpa using h2
  have l3 : ¬ req.dest.length = 0 := by simpa using h3
  unfold main
  simp only [l1, l2, l3, h4, if_false, ne_eq, not_true_eq_false]
  cases e1 : eng.NewClient endpoint with
  | error err => exact Or.inl ⟨err, rfl, rfl⟩
  | ok u =>
  refine Or.inr ?_
  cases e2 : eng.InspectImage req.image with
  | error err => exact Or.inl ⟨err, rfl, rfl, rfl⟩
  | ok img =>
  refine Or.inr ?_
  cases e3 : eng.CreateContainer (createOptions req) with
  | error err => exact Or.inl ⟨img, err, rfl, rfl, rfl, rfl⟩
  | ok c =>
  refine Or.inr ?_
  cases e4 : eng.StartContainer c.ID with
  | error err => exact Or.inl ⟨img, c, err, rfl, rfl, rfl, e4, by simp only [e4]; rfl⟩
  | ok u =>
  refine Or.inr ?_
  cases e5 : eng.WaitContainer c.ID with
  | error err =>
    exact Or.inl ⟨img, c, err, rfl, rfl, rfl, e4, e5, by simp only [e4, e5]; rfl⟩
  | ok rc =>
  refine Or.inr ?_
  by_cases hrc : rc = 0
  · subst hrc
    refine Or.inr ?_
    cases e6 : eng.CommitContainer ⟨c.ID, (Split req.image ':').getD 0 [],
        (Split req.image ':').getD 1 [], normalizeEntrypoint img.Config⟩ with
    | error err =>
      exact Or.inl ⟨img, c, _, err, rfl, rfl, rfl, e4, e5, rfl, e6,
        by simp only [e4, e5, e6, if_false, not_true_eq_false]; rfl⟩
    | ok newImage =>
    refine Or.inr ?_
    cases e7 : eng.RemoveContainer ⟨c.ID⟩ with
    | error err =>
      exact Or.inl ⟨img, c, _, newImage, err, rfl, rfl, rfl, e4, e5, rfl, e6, e7,
        by simp only [e4, e5, e6, e7, if_false, not_true_eq_false]; rfl⟩
    | ok u =>
      exact Or.inr ⟨img, c, _, newImage, rfl, rfl, rfl, e4, e5, rfl, e6, e7,
        by simp only [e4, e5, e6, e7, if_false, not_true_eq_false]; rfl⟩
  · exact Or.inl ⟨img, c, rc, rfl, rfl, rfl, e4, e5, hrc,
      by simp only [e4, e5, hrc, not_false_eq_true, if_true]; rfl⟩

/-- A request that fails validation ends the run at once. -/
theorem main_of_not_valid {ρ : Type} [Inhabited ρ] (req : Request) (eng : Engine ρ)
    (hv : ¬ req.valid) : (main req eng).status = 1 ∧ (main req eng).calls = [] := by
  unfold main
  by_cases h1 : req.image.length = 0
  · simp [h1]
  by_cases h2 : req.src.length = 0
  · simp [h1, h2]
  by_cases h3 : req.dest.length = 0
  · simp [h1, h2, h3]
  by_cases h4 : (Split req.image ':').length ≠ 2
  · simp [h1, h2, h3, h4]
  exfalso
  apply hv
  refine ⟨?_, ?_, ?_, not_not.mp h4⟩
  · intro h; exact h1 (by simp [h])
  · intro h; exact h2 (by simp [h])
  · intro h; exact h3 (by simp [h])

/-- Every create-container call of a run carries `createOptions`. -/
theorem create_call_eq {ρ : Type} [Inhabited ρ] (req : Request) (eng : Engine ρ)
    (opts : CreateContainerOptions ρ)
    (h : Call.CreateContainer opts ∈ (main req eng).calls) : opts = createOptions req := by
  by_cases hv : req.valid
  · rcases main_paths req eng hv with
      ⟨_, _, e⟩ | ⟨_, _, _, e⟩ | ⟨_, _, _, _, _, e⟩ | ⟨_, _, _, _, _, _, _, e⟩ |
      ⟨_, _, _, _, _, _, _, _, e⟩ | ⟨_, _, _, _, _, _, _, _, _, e⟩ |
      ⟨_, _, _, _, _, _, _, _, _, _, _, e⟩ | ⟨_, _, _, _, _, _, _, _, _, _, _, _, _, e⟩ |
      ⟨_, _, _, _, _, _, _, _, _, _, _, _, e⟩
    all_goals rw [e] at h
    all_goals simp at h
    all_goals exact h
  · rw [(main_of_not_valid req eng hv).2] at h
    simp at h

/-- A commit-container call is reached only through a successful copy, and carries the
two parts of the image reference and the normalized configuration of the image. -/
theorem commit_call_eq {ρ : Type} [Inhabited ρ] (req : Request) (eng : Engine ρ)
    (opts : CommitContainerOptions ρ)
    (h : Call.CommitContainer opts ∈ (main req eng).calls) :
    ∃ (img : Image ρ) (c : Container), req.valid ∧
      eng.NewClient endpoint = .ok () ∧
      eng.InspectImage req.image = .ok img ∧
      eng.CreateContainer (createOptions req) = .ok c ∧
      eng.StartContainer c.ID = .ok () ∧
      eng.WaitContainer c.ID = .ok 0 ∧
      opts = ⟨c.ID, (Split req.image ':').getD 0 [], (Split req.image ':').getD 1 [],
        normalizeEntrypoint img.Config⟩ := by
  by_cases hv : req.valid
  · rcases main_paths req eng hv with
      ⟨_, _, e⟩ | ⟨_, _, _, e⟩ | ⟨_, _, _, _, _, e⟩ | ⟨_, _, _, _, _, _, _, e⟩ |
      ⟨_, _, _, _, _, _, _, _, e⟩ | ⟨_, _, _, _, _, _, _, _, _, e⟩ |
      ⟨img, c, o, _, e1, e2, e3, e4, e5, e6, _, e⟩ |
      ⟨img, c, o, _, _, e1, e2, e3, e4, e5, e6, _, _, e⟩ |
      ⟨img, c, o, _, e1, e2, e3, e4, e5, e6, _, _, e⟩
    all_goals rw [e] at h
    all_goals simp at h
    all_goals exact ⟨img, c, hv, e1, e2, e3, e4, e5, h.trans e6⟩
  · rw [(main_of_not_valid req eng hv).2] at h
    simp at h

/-! ## Facts about `path.Clean` on rooted paths -/

theorem components_slash (s : Str) : components ('/' :: s) = components s := by
  simp [components, componentsAux]

theorem componentsAux_append (seg : Str) : ∀ (cur rest : Str), '/' ∉ seg →
    (rest = [] ∨ ∃ t, rest = '/' :: t) →
    componentsAux cur (seg ++ rest) =
      if cur ++ seg = [] then components rest else (cur ++ seg) :: components rest := by
  induction seg with
  | nil =>
    intro cur rest _ hr
    rcases hr with rfl | ⟨t, rfl⟩
    · simp [componentsAux, components]
    · by_cases hc : cur = [] <;> simp [componentsAux, components, hc]
  | cons c seg ih =>
    intro cur rest hs hr
    have hc : c ≠ '/' := by
      intro h; subst h; simp at hs
    have hs' : '/' ∉ seg := by
      intro h; exact hs (List.mem_cons_of_mem _ h)
    have e := ih (cur ++ [c]) rest hs' hr
    simp only [List.append_assoc, List.singleton_append] at e
    simp only [List.cons_append, componentsAux, hc, if_false]
    exact e

theorem components_append (seg rest : Str) (hne : seg ≠ []) (hs : '/' ∉ seg)
    (hr : rest = [] ∨ ∃ t, rest = '/' :: t) :
    components (seg ++ rest) = seg :: components rest := by
  unfold components
  rw [componentsAux_append seg [] rest hs hr]
  simp [hne, components]

theorem render_concat (stack : List Str) (seg : Str) :
    render (stack ++ [seg]) = (if stack = [] then [] else render stack) ++ '/' :: seg := by
  by_cases h : stack = []
  · subst h; simp [render]
  · simp [render, h]

theorem render_length_pos (stack : List Str) : 1 ≤ (render stack).length := by
  unfold render
  split
  · simp
  · rename_i h
    cases stack with
    | nil => exact absurd rfl h
    | cons a t => simp

theorem append_rep (content g : Str) (c : Char) :
    (⟨content ++ g, content.length⟩ : lazybuf).append c =
      ⟨(content ++ [c]) ++ [], (content ++ [c]).length⟩ := by
  simp [lazybuf.append]

theorem copyElem_rep : ∀ (rest content g : Str), ∃ g',
    copyElem rest ⟨content ++ g, content.length⟩ =
      (rest.dropWhile (fun x => x != '/'),
        ⟨(content ++ rest.takeWhile (fun x => x != '/')) ++ g',
          (content ++ rest.takeWhile (fun x => x != '/')).length⟩) := by
  intro rest
  induction rest with
  | nil => intro content g; exact ⟨g, by simp [copyElem]⟩
  | cons c rest ih =>
    intro content g
    by_cases hc : c = '/'
    · subst hc
      exact ⟨g, by simp [copyElem]⟩
    · obtain ⟨g', hg⟩ := ih (content ++ [c]) []
      refine ⟨g', ?_⟩
      simp only [copyElem, hc, if_false]
      rw [append_rep, hg]
      simp [hc]

theorem backtrack_eq (out : lazybuf) (dd m : Nat) (h1 : dd ≤ m)
    (h2 : m = dd ∨ out.index m = '/') :
    ∀ k, (∀ i, m < i → i ≤ m + k → out.index i ≠ '/') → backtrack out dd (m + k) = m := by
  intro k
  induction k with
  | zero =>
    intro _
    cases m with
    | zero => rfl
    | succ m =>
      simp only [Nat.add_zero, backtrack]
      rcases h2 with h2 | h2
      · have : ¬ (m + 1 > dd) := by omega
        simp [this]
      · simp [h2]
  | succ k ih =>
    intro h3
    have e : m + (k + 1) = (m + k) + 1 := by omega
    rw [e]
    simp only [backtrack]
    have c1 : m + k + 1 > dd := by omega
    have c2 : out.index (m + k + 1) ≠ '/' := h3 _ (by omega) (by omega)
    simp only [c1, c2, ne_eq, not_false_eq_true, and_self, if_true]
    exact ih (fun i hi hi' => h3 i hi (by omega))

theorem index_mid (pre mid g : Str) (x : Char) (w i : Nat) (hs : '/' ∉ mid)
    (h1 : pre.length < i) (h2 : i ≤ pre.length + mid.length) :
    (⟨pre ++ x :: (mid ++ g), w⟩ : lazybuf).index i ≠ '/' := by
  obtain ⟨j, rfl⟩ : ∃ j, i = pre.length + 1 + j := ⟨i - pre.length - 1, by omega⟩
  have hj : j < mid.length := by omega
  simp only [lazybuf.index, List.getD_eq_getElem?_getD]
  rw [List.getElem?_append_right (by omega)]
  have e : pre.length + 1 + j - pre.length = j + 1 := by omega
  rw [e, List.getElem?_cons_succ, List.getElem?_append_left hj]
  rw [List.getElem?_eq_getElem hj]
  simp only [Option.getD_some]
  intro h
  exact hs (h ▸ List.getElem_mem hj)

theorem index_at (pre t : Str) (x : Char) (w : Nat) :
    (⟨pre ++ x :: t, w⟩ : lazybuf).index pre.length = x := by
  simp only [lazybuf.index, List.getD_eq_getElem?_getD]
  rw [List.getElem?_append_right (le_refl _)]
  simp

theorem takeWhile_nil_cases (l : Str) (h : l.takeWhile (fun x => x != '/') = []) :
    l = [] ∨ ∃ t, l = '/' :: t := by
  cases l with
  | nil => exact Or.inl rfl
  | cons a t =>
    by_cases ha : a = '/'
    · subst ha; exact Or.inr ⟨t, rfl⟩
    · rw [List.takeWhile_cons] at h
      simp [ha] at h

theorem dropWhile_cases (l : Str) :
    l.dropWhile (fun x => x != '/') = [] ∨ ∃ t, l.dropWhile (fun x => x != '/') = '/' :: t := by
  induction l with
  | nil => exact Or.inl rfl
  | cons a t ih =>
    by_cases ha : a = '/'
    · subst ha; exact Or.inr ⟨t, by rw [List.dropWhile_cons]; simp⟩
    · have e : (a :: t).dropWhile (fun x => x != '/') = t.dropWhile (fun x => x != '/') := by
        rw [List.dropWhile_cons]; simp [ha]
      rw [e]; exact ih

theorem not_mem_takeWhile (l : Str) : '/' ∉ l.takeWhile (fun x => x != '/') := by
  intro h
  have := List.mem_takeWhile_imp h
  simp at this

theorem head_cases (l : Str) (h : l = [] ∨ l.head? = some '/') :
    l = [] ∨ ∃ t, l = '/' :: t := by
  rcases h with h | h
  · exact Or.inl h
  · cases l with
    | nil => exact Or.inl rfl
    | cons a t =>
      simp at h
      subst h
      exact Or.inr ⟨t, rfl⟩

theorem render_concat_length (init : List Str) (last : Str) (h : last ≠ []) :
    1 < (render (init ++ [last])).length := by
  rw [render_concat]
  have : 0 < last.length := List.length_pos.mpr h
  simp only [List.length_append, List.length_cons]
  omega

theorem render_concat_split (init : List Str) (last g : Str) (h : last ≠ []) :
    ∃ x mid, '/' :: last = x :: mid ∧ render (init ++ [last]) ++ g =
        render init ++ (if init = [] then last ++ g else '/' :: last ++ g) ∧
      (render (init ++ [last])).length - 1 =
        (render init).length + (if init = [] then last.length - 1 else last.length) := by
  refine ⟨'/', last, rfl, ?_, ?_⟩
  · rw [render_concat]
    by_cases hi : init = []
    · subst hi; simp [render]
    · simp [hi]
  · rw [render_concat]
    have : 0 < last.length := List.length_pos.mpr h
    by_cases hi : init = []
    · subst hi; simp [render]; omega
    · simp [hi]

/-- Backtracking over the last component of the buffer stops right after the previous
one. -/
theorem backtrack_render (init : List Str) (last g : Str) (w : Nat) (h : last ≠ [])
    (hs : '/' ∉ last) :
    backtrack ⟨render (init ++ [last]) ++ g, w⟩ 1 ((render (init ++ [last])).length - 1) =
      (render init).length := by
  obtain ⟨_, _, _, e1, e2⟩ := render_concat_split init last g h
  rw [e1, e2]
  by_cases hi : init = []
  · subst hi
    simp only [if_true]
    cases last with
    | nil => exact absurd rfl h
    | cons x mid =>
      have hm : '/' ∉ mid := fun hx => hs (List.mem_cons_of_mem _ hx)
      apply backtrack_eq _ 1 _ (by simp [render]) (Or.inl (by simp [render]))
      intro i hi1 hi2
      have := index_mid (render ([] : List Str)) mid g x w i hm hi1 (by simpa using hi2)
      simpa using this
  · simp only [hi, if_false]
    apply backtrack_eq _ 1 _ (render_length_pos init) (Or.inr ?_)
    · intro i hi1 hi2
      have := index_mid (render init) last g '/' w i hs hi1 hi2
      simpa using this
    · have := index_at (render init) (last ++ g) '/' w
      simpa using this

/-- The main loop of `Clean` on a rooted path: started at a component boundary with a
buffer holding the rendered stack, it ends with the rendered resolution of the rest. -/
theorem cleanLoop_rooted : ∀ (fuel : Nat) (rest : Str) (stack : List Str) (g : Str),
    rest.length ≤ fuel → (∀ s ∈ stack, s ≠ [] ∧ '/' ∉ s) →
    ∃ g', cleanLoop true fuel rest ⟨render stack ++ g, (render stack).length⟩ 1 =
      ⟨render (resolve stack (components rest)) ++ g',
        (render (resolve stack (components rest))).length⟩ := by
  intro fuel
  induction fuel with
  | zero =>
    intro rest stack g hl _
    have : rest = [] := List.length_eq_zero.mp (Nat.le_zero.mp hl)
    subst this
    exact ⟨g, by simp [cleanLoop, components, componentsAux, resolve]⟩
  | succ fuel ih =>
    intro rest stack g hl hv
    cases rest with
    | nil => exact ⟨g, by simp [cleanLoop, components, componentsAux, resolve]⟩
    | cons c rest =>
      have hl' : rest.length ≤ fuel := by simpa using hl
      simp only [cleanLoop]
      by_cases hc : c = '/'
      · subst hc
        rw [if_pos rfl, components_slash]
        exact ih rest stack g hl' hv
      rw [if_neg hc]
      by_cases hA : c = '.' ∧ (rest = [] ∨ rest.head? = some '/')
      · rw [if_pos hA]
        obtain ⟨rfl, hr⟩ := hA
        have e : components ('.' :: rest) = ['.'] :: components rest :=
          components_append ['.'] rest (by simp) (by simp) (head_cases rest hr)
        rw [e]
        simp only [resolve, if_true]
        exact ih rest stack g hl' hv
      rw [if_neg hA]
      by_cases hB : c = '.' ∧ rest.head? = some '.' ∧
          (rest.tail = [] ∨ rest.tail.head? = some '/')
      · rw [if_pos hB]
        obtain ⟨rfl, h1, h2⟩ := hB
        obtain ⟨t, rfl⟩ : ∃ t, rest = '.' :: t := by
          cases rest with
          | nil => simp at h1
          | cons a t => simp at h1; subst h1; exact ⟨t, rfl⟩
        simp only [List.tail_cons] at h2 ⊢
        have ht : t.length ≤ fuel := by simp at hl'; omega
        have e : components ('.' :: '.' :: t) = ['.', '.'] :: components t :=
          components_append ['.', '.'] t (by simp) (by simp) (head_cases t h2)
        rw [e]
        have ne1 : ¬ (['.', '.'] : Str) = ['.'] := by simp
        simp only [resolve, ne1, if_false, if_true]
        rcases List.eq_nil_or_concat stack with rfl | ⟨init, last, hst⟩
        · have hw : ¬ (render ([] : List Str)).length > 1 := by simp [render]
          rw [if_neg hw]
          simp only [Bool.true_eq_false, if_false, List.dropLast_nil]
          exact ih t [] g ht hv
        · rw [List.concat_eq_append] at hst
          subst hst
          have hlast := hv last (by simp)
          have hw : (render (init ++ [last])).length > 1 :=
            render_concat_length init last hlast.1
          rw [if_pos hw, List.dropLast_concat]
          rw [backtrack_render init last g _ hlast.1 hlast.2]
          obtain ⟨_, _, _, e1, -⟩ := render_concat_split init last g hlast.1
          rw [e1]
          exact ih t init _ ht (fun s hs => hv s (by simp [hs]))
      rw [if_neg hB]
      -- real path element
      have e0 : c :: rest = (c :: rest).takeWhile (fun x => x != '/') ++
          (c :: rest).dropWhile (fun x => x != '/') :=
        (List.takeWhile_append_dropWhile _ _).symm
      have hseg : (c :: rest).takeWhile (fun x => x != '/') =
          c :: rest.takeWhile (fun x => x != '/') := by
        rw [List.takeWhile_cons]; simp [hc]
      have hdrop : (c :: rest).dropWhile (fun x => x != '/') =
          rest.dropWhile (fun x => x != '/') := by
        rw [List.dropWhile_cons]; simp [hc]
      have hnm := not_mem_takeWhile (c :: rest)
      have hcomp : components (c :: rest) =
          (c :: rest).takeWhile (fun x => x != '/') ::
            components ((c :: rest).dropWhile (fun x => x != '/')) := by
        conv_lhs => rw [e0]
        exact components_append _ _ (by rw [hseg]; simp) hnm (dropWhile_cases _)
      have hlen : ((c :: rest).dropWhile (fun x => x != '/')).length ≤ fuel := by
        rw [hdrop]
        exact le_trans ((List.dropWhile_sublist _).length_le) hl'
      have hn1 : ¬ (c :: rest).takeWhile (fun x => x != '/') = ['.'] := by
        intro h
        rw [hseg] at h
        simp only [List.cons.injEq] at h
        exact hA ⟨h.1, by
          rcases takeWhile_nil_cases rest h.2 with h3 | ⟨t, h3⟩
          · exact Or.inl h3
          · exact Or.inr (by rw [h3]; rfl)⟩
      have hn2 : ¬ (c :: rest).takeWhile (fun x => x != '/') = ['.', '.'] := by
        intro h
        rw [hseg] at h
        simp only [List.cons.injEq] at h
        obtain ⟨hc1, h2⟩ := h
        cases rest with
        | nil => simp at h2
        | cons a t =>
          by_cases ha : a = '/'
          · subst ha; rw [List.takeWhile_cons] at h2; simp at h2
          · rw [List.takeWhile_cons] at h2
            have hp : (a != '/') = true := by simp [ha]
            rw [if_pos hp] at h2
            simp only [List.cons.injEq] at h2
            obtain ⟨ha1, h3⟩ := h2
            refine hB ⟨hc1, by simp [ha1], ?_⟩
            rcases takeWhile_nil_cases t h3 with h4 | ⟨u, h4⟩
            · exact Or.inl h4
            · exact Or.inr (by rw [List.tail_cons, h4]; rfl)
      have hvs : ∀ s ∈ stack ++ [(c :: rest).takeWhile (fun x => x != '/')],
          s ≠ [] ∧ '/' ∉ s := by
        intro s hs
        rcases List.mem_append.mp hs with h | h
        · exact hv s h
        · simp only [List.mem_singleton] at h
          subst h
          exact ⟨by rw [hseg]; simp, hnm⟩
      rw [hcomp]
      simp only [resolve, hn1, hn2, if_false]
      simp only [true_and, Bool.true_eq_false, false_and, or_false]
      rcases List.eq_nil_or_concat stack with rfl | ⟨init, last, hst⟩
      · have hw : ¬ (render ([] : List Str)).length ≠ 1 := by simp [render]
        rw [if_neg hw]
        obtain ⟨g1, hg1⟩ := copyElem_rep (c :: rest) (render []) g
        rw [hg1]
        have e2 : render [] ++ (c :: rest).takeWhile (fun x => x != '/') =
            render ([] ++ [(c :: rest).takeWhile (fun x => x != '/')]) := by
          rw [render_concat]; simp [render]
        rw [e2]
        exact ih _ _ g1 hlen hvs
      · rw [List.concat_eq_append] at hst
        subst hst
        have hlast := hv last (by simp)
        have hw : (render (init ++ [last])).length ≠ 1 :=
          Nat.ne_of_gt (render_concat_length init last hlast.1)
        rw [if_pos hw, append_rep]
        obtain ⟨g1, hg1⟩ := copyElem_rep (c :: rest) (render (init ++ [last]) ++ ['/']) []
        rw [hg1]
        have e2 : render (init ++ [last]) ++ ['/'] ++
              (c :: rest).takeWhile (fun x => x != '/') =
            render (init ++ [last] ++ [(c :: rest).takeWhile (fun x => x != '/')]) := by
          rw [render_concat (init ++ [last])]; simp
        rw [e2]
        exact ih _ _ g1 hlen hvs

/-- On a rooted path, `Clean` renders the resolution of its components. -/
theorem Clean_rooted (p : Str) : Clean ('/' :: p) = render (resolve [] (components p)) := by
  obtain ⟨g, hg⟩ := cleanLoop_rooted (p.length + 1) p [] [] (by omega) (by simp)
  have h0 : (⟨[], 0⟩ : lazybuf).append '/' =
      ⟨render [] ++ [], (render ([] : List Str)).length⟩ := by
    simp [lazybuf.append, render]
  have hpos := render_length_pos (resolve [] (components p))
  simp only [Clean, List.head?_cons, List.tail_cons, List.length_cons, decide_True, if_true,
    reduceCtorEq, if_false]
  rw [h0, hg]
  have hne : ¬ (render (resolve [] (components p))).length = 0 := by omega
  simp only [hne, if_false, lazybuf.string, List.take_left]

/-- The buffer that `Join` hands to `Clean` for the staging path. -/
theorem tempDest_eq_Clean (dest : Str) :
    tempDest dest = Clean (stageRoot ++ '/' :: dest) := by
  simp [tempDest, Join, stageRoot]

theorem tempDest_eq_render (dest : Str) :
    tempDest dest =
      render (resolve ["var".toList, "copy-to-image".toList] (components dest)) := by
  rw [tempDest_eq_Clean]
  have e : stageRoot ++ '/' :: dest =
      '/' :: ("var".toList ++ '/' :: ("copy-to-image".toList ++ '/' :: dest)) := by
    simp [stageRoot]
  rw [e, Clean_rooted]
  rw [components_append "var".toList _ (by decide) (by decide) (Or.inr ⟨_, rfl⟩)]
  rw [components_slash]
  rw [components_append "copy-to-image".toList _ (by decide) (by decide) (Or.inr ⟨_, rfl⟩)]
  rw [components_slash]
  have n1 : ¬ "var".toList = ['.'] := by decide
  have n2 : ¬ "var".toList = ['.', '.'] := by decide
  have n3 : ¬ "copy-to-image".toList = ['.'] := by decide
  have n4 : ¬ "copy-to-image".toList = ['.', '.'] := by decide
  simp only [resolve, n1, n2, n3, n4, if_false, List.nil_append, List.cons_append]

/-- Without `..` components, resolution appends the components other than `.`. -/
theorem resolve_no_dotdot (segs : List Str) : ∀ stack : List Str, ['.', '.'] ∉ segs →
    resolve stack segs = stack ++ segs.filter (fun s => s ≠ ['.']) := by
  induction segs with
  | nil => intro stack _; simp [resolve]
  | cons seg segs ih =>
    intro stack h
    have h1 : seg ≠ ['.', '.'] := fun e => h (e ▸ List.mem_cons_self _ _)
    have h2 : ['.', '.'] ∉ segs := fun e => h (List.mem_cons_of_mem _ e)
    by_cases hd : seg = ['.']
    · subst hd
      simp only [resolve, if_true]
      rw [ih stack h2]
      simp
    · simp only [resolve, hd, h1, if_false]
      rw [ih _ h2]
      simp [hd]

/-- The components of a path are the non-empty parts of `strings.Split(path, "/")`. -/
theorem components_eq_Split (s : Str) :
    components s = (Split s '/').filter (fun t => t ≠ []) := by
  unfold Split
  generalize hk : Count s '/' = k
  induction k generalizing s with
  | zero =>
    have hs : '/' ∉ s := List.count_eq_zero.mp hk
    have e := componentsAux_append s [] [] hs (Or.inl rfl)
    simp only [List.append_nil, List.nil_append] at e
    by_cases h : s = []
    · subst h; simp [genSplit, components, componentsAux]
    · simp only [components, e, h, if_false, genSplit]
      simp [h, componentsAux]
  | succ k ih =>
    unfold genSplit
    cases hi : Index s '/' with
    | none =>
      rw [Index_none_iff] at hi
      omega
    | some m =>
      obtain ⟨h1, h2, h3⟩ := Index_some s '/' m hi
      have hs : '/' ∉ s.take m := List.count_eq_zero.mp h2
      have e := componentsAux_append (s.take m) [] ('/' :: s.drop (m + 1)) hs
        (Or.inr ⟨_, rfl⟩)
      rw [← h1] at e
      simp only [List.nil_append, components_slash] at e
      have hc : Count (s.drop (m + 1)) '/' = k := by omega
      have e2 := ih (s.drop (m + 1)) hc
      show componentsAux [] s = _
      rw [e, e2]
      by_cases h : s.take m = []
      · simp [h]
      · simp [h]

/-! ## The workflow -/

/-- C1: when the image reference, the source path or the destination path is empty, or
the image reference does not split on `:` into exactly two parts (zero colons, or two or
more), the run ends with a non-zero status and invokes no engine operation at all. -/
theorem validation_precedes_engine {ρ : Type} [Inhabited ρ] (req : Request) (eng : Engine ρ)
    (h : req.image = [] ∨ req.src = [] ∨ req.dest = [] ∨ (Split req.image ':').length ≠ 2 ∨
      req.image.count ':' = 0 ∨ 2 ≤ req.image.count ':') :
    (main req eng).status ≠ 0 ∧ (main req eng).calls = [] := by
  have hs := Split_length req.image ':'
  have h' : req.image = [] ∨ req.src = [] ∨ req.dest = [] ∨
      (Split req.image ':').length ≠ 2 := by
    rcases h with h | h | h | h | h | h
    · exact Or.inl h
    · exact Or.inr (Or.inl h)
    · exact Or.inr (Or.inr (Or.inl h))
    · exact Or.inr (Or.inr (Or.inr h))
    · exact Or.inr (Or.inr (Or.inr (by omega)))
    · exact Or.inr (Or.inr (Or.inr (by omega)))
  unfold main
  by_cases h1 : req.image.length = 0
  · simp [h1]
  by_cases h2 : req.src.length = 0
  · simp [h1, h2]
  by_cases h3 : req.dest.length = 0
  · simp [h1, h2, h3]
  by_cases h4 : (Split req.image ':').length ≠ 2
  · simp [h1, h2, h3, h4]
  exfalso
  rcases h' with h | h | h | h
  · exact h1 (by simp [h])
  · exact h2 (by simp [h])
  · exact h3 (by simp [h])
  · exact h4 h

/-- C1, at a request without a tag and at one with an empty source path. -/
theorem validation_precedes_engine_witness :
    ("app".toList = [] ∨ "/host/f".toList = [] ∨ "/f".toList = [] ∨
      (Split "app".toList ':').length ≠ 2 ∨
      "app".toList.count ':' = 0 ∨ 2 ≤ "app".toList.count ':') ∧
    (main ⟨"app".toList, "/host/f".toList, "/f".toList, false, "/bin/cp".toList⟩
      engineOK).status ≠ 0 ∧
    (main ⟨"app".toList, "/host/f".toList, "/f".toList, false, "/bin/cp".toList⟩
      engineOK).calls = [] :=
  ⟨by decide, validation_precedes_engine _ _ (by decide)⟩

/-- C2: on a valid request whose wait step reports an exit code `rc`: when `rc = 0`,
commit-container is invoked, once, with `Repository` and `Tag` the two parts of the image
reference around its colon; when `rc ≠ 0`, commit-container is not invoked and the exit
status is non-zero. -/
theorem commit_iff_copy_succeeded {ρ : Type} [Inhabited ρ] (req : Request) (eng : Engine ρ)
    (img : Image ρ) (c : Container) (rc : Int) (hv : req.valid)
    (hconnect : eng.NewClient endpoint = .ok ())
    (hinspect : eng.InspectImage req.image = .ok img)
    (hcreate : eng.CreateContainer (createOptions req) = .ok c)
    (hstart : eng.StartContainer c.ID = .ok ())
    (hwait : eng.WaitContainer c.ID = .ok rc) :
    (rc = 0 → ∃ opts : CommitContainerOptions ρ,
      (main req eng).calls.filter (fun k => k.op = Op.commit) = [Call.CommitContainer opts] ∧
      Split req.image ':' = [opts.Repository, opts.Tag] ∧
      opts.Repository ++ ':' :: opts.Tag = req.image) ∧
    (rc ≠ 0 → (∀ k ∈ (main req eng).calls, k.op ≠ Op.commit) ∧ (main req eng).status ≠ 0) := by
  obtain ⟨h1, h2, h3, h4⟩ := hv
  obtain ⟨e1, -, -, e4⟩ := Split_two req.image ':' h4
  have l1 : ¬ req.image.length = 0 := by simpa using h1
  have l2 : ¬ req.src.length = 0 := by simpa using h2
  have l3 : ¬ req.dest.length = 0 := by simpa using h3
  constructor
  · intro hrc
    subst hrc
    refine ⟨⟨c.ID, (Split req.image ':').getD 0 [], (Split req.image ':').getD 1 [],
      normalizeEntrypoint img.Config⟩, ?_, e4, e1.symm⟩
    unfold main
    simp only [l1, l2, l3, h4, hconnect, hinspect, hcreate, hstart, hwait, if_false,
      ne_eq, not_true_eq_false]
    split
    · simp [List.filter, Call.op]
    · split <;> simp [List.filter, Call.op]
  · intro hrc
    unfold main
    simp only [l1, l2, l3, h4, hconnect, hinspect, hcreate, hstart, hwait, if_false,
      ne_eq, not_true_eq_false, hrc, not_false_eq_true, if_true]
    simp [Call.op]

/-- C2, on the sample request with an engine that succeeds throughout. -/
theorem commit_iff_copy_succeeded_witness :
    (∃ opts : CommitContainerOptions Nat,
      (main sampleRequest engineOK).calls.filter (fun k => k.op = Op.commit) =
        [Call.CommitContainer opts] ∧
      Split sampleRequest.image ':' = [opts.Repository, opts.Tag] ∧
      opts.Repository ++ ':' :: opts.Tag = sampleRequest.image) ∧
    (∀ k ∈ (main sampleRequest engineCopyFails).calls, k.op ≠ Op.commit) ∧
      (main sampleRequest engineCopyFails).status ≠ 0 :=
  ⟨(commit_iff_copy_succeeded sampleRequest engineOK ⟨"img0".toList, sampleConfig⟩
      ⟨"c0".toList⟩ 0 (by decide) rfl rfl rfl rfl rfl).1 rfl,
   (commit_iff_copy_succeeded sampleRequest engineCopyFails ⟨"img0".toList, sampleConfig⟩
      ⟨"c0".toList⟩ 1 (by decide) rfl rfl rfl rfl rfl).2 (by decide)⟩

/-- C3: every create-container call of a run passes exactly one bind-mount string:
`src:stage` when the relabel flag is unset and `src:stage:z` when it is set, where
`stage` is `/var/copy-to-image` joined with the destination path. -/
theorem bind_mount_string {ρ : Type} [Inhabited ρ] (req : Request) (eng : Engine ρ)
    (opts : CreateContainerOptions ρ)
    (h : Call.CreateContainer opts ∈ (main req eng).calls) :
    (req.useZ = false → opts.HostConfig.Binds =
      [req.src ++ ":".toList ++ Join ["/var/copy-to-image".toList, req.dest]]) ∧
    (req.useZ = true → opts.HostConfig.Binds =
      [req.src ++ ":".toList ++ Join ["/var/copy-to-image".toList, req.dest]
        ++ ":z".toList]) := by
  rw [create_call_eq req eng opts h]
  constructor <;> intro hz <;> simp [createOptions, bind, hz, tempDest, stageRoot]

/-- C3 on the sample request, with and without the relabel flag. -/
theorem bind_mount_string_witness :
    ((createOptions sampleRequest : CreateContainerOptions Nat).HostConfig.Binds =
      ["/host/bin/tool:/var/copy-to-image/usr/local/bin/tool".toList]) ∧
    ((createOptions { sampleRequest with useZ := true } :
        CreateContainerOptions Nat).HostConfig.Binds =
      ["/host/bin/tool:/var/copy-to-image/usr/local/bin/tool:z".toList]) :=
  ⟨((bind_mount_string sampleRequest engineOK (createOptions sampleRequest)
      (by decide)).1 rfl).trans (by decide),
   ((bind_mount_string { sampleRequest with useZ := true } engineOK
      (createOptions { sampleRequest with useZ := true }) (by decide)).2 rfl).trans
      (by decide)⟩

/-- C4: the run configuration of every commit-container call is the configuration
returned by inspect-image, with a nil or empty entrypoint replaced by an explicit empty
list: user, image and all other fields are unchanged, a nil or empty entrypoint becomes
`some []`, and a non-empty entrypoint leaves the configuration as it was. -/
theorem commit_run_configuration {ρ : Type} [Inhabited ρ] (req : Request) (eng : Engine ρ)
    (opts : CommitContainerOptions ρ)
    (h : Call.CommitContainer opts ∈ (main req eng).calls) :
    ∃ img : Image ρ, eng.InspectImage req.image = .ok img ∧
      opts.Run.User = img.Config.User ∧ opts.Run.Image = img.Config.Image ∧
      opts.Run.other = img.Config.other ∧
      (img.Config.Entrypoint = none ∨ img.Config.Entrypoint = some [] →
        opts.Run.Entrypoint = some []) ∧
      (∀ e, img.Config.Entrypoint = some e → e ≠ [] →
        opts.Run.Entrypoint = some e ∧ opts.Run = img.Config) := by
  obtain ⟨img, c, -, -, e2, -, -, -, rfl⟩ := commit_call_eq req eng opts h
  refine ⟨img, e2, ?_, ?_, ?_, ?_, ?_⟩
  · simp only [normalizeEntrypoint]; split <;> rfl
  · simp only [normalizeEntrypoint]; split <;> rfl
  · simp only [normalizeEntrypoint]; split <;> rfl
  · rintro (h | h) <;> simp [normalizeEntrypoint, h]
  · intro e he hne
    have : ¬ e.length = 0 := by simpa using hne
    simp [normalizeEntrypoint, he, this]

/-- C4 on the sample run, whose image has a nil entrypoint. -/
theorem commit_run_configuration_witness :
    ∃ img : Image Nat, engineOK.InspectImage sampleRequest.image = .ok img ∧
      sampleConfig.User = img.Config.User ∧ sampleConfig.Image = img.Config.Image ∧
      sampleConfig.other = img.Config.other ∧
      (img.Config.Entrypoint = none ∨ img.Config.Entrypoint = some [] →
        (some [] : Option (List Str)) = some []) ∧
      (∀ e, img.Config.Entrypoint = some e → e ≠ [] →
        (some [] : Option (List Str)) = some e ∧
          ({ sampleConfig with Entrypoint := some [] } : Config Nat) = img.Config) :=
  commit_run_configuration sampleRequest engineOK
    ⟨"c0".toList, "app".toList, "v1".toList, { sampleConfig with Entrypoint := some [] }⟩
    (by decide)

/-- C5: every create-container call of a run has user `root`, the supplied image
reference as image, and the four-element entrypoint `[cp, -v, stage, dest]` with `stage`
the fixed root joined with `dest`; and in the end-to-end scenario (`app:v1`,
`/host/bin/tool`, `/usr/local/bin/tool`, no relabel, `/bin/cp`) the entrypoint, the bind
mount and the commit target are the ones the specification lists. -/
theorem create_container_options :
    (∀ {ρ : Type} [Inhabited ρ] (req : Request) (eng : Engine ρ)
        (opts : CreateContainerOptions ρ),
      Call.CreateContainer opts ∈ (main req eng).calls →
        opts.Config.User = "root".toList ∧ opts.Config.Image = req.image ∧
        opts.Config.Entrypoint = some [req.cp, "-v".toList,
          Join ["/var/copy-to-image".toList, req.dest], req.dest]) ∧
    (∀ {ρ : Type} [Inhabited ρ] (eng : Engine ρ),
      (∀ opts : CreateContainerOptions ρ,
        Call.CreateContainer opts ∈
          (main ⟨"app:v1".toList, "/host/bin/tool".toList, "/usr/local/bin/tool".toList,
            false, "/bin/cp".toList⟩ eng).calls →
        opts.Config.Entrypoint = some ["/bin/cp".toList, "-v".toList,
          "/var/copy-to-image/usr/local/bin/tool".toList, "/usr/local/bin/tool".toList] ∧
        opts.HostConfig.Binds =
          ["/host/bin/tool:/var/copy-to-image/usr/local/bin/tool".toList]) ∧
      (∀ opts : CommitContainerOptions ρ,
        Call.CommitContainer opts ∈
          (main ⟨"app:v1".toList, "/host/bin/tool".toList, "/usr/local/bin/tool".toList,
            false, "/bin/cp".toList⟩ eng).calls →
        opts.Repository = "app".toList ∧ opts.Tag = "v1".toList)) := by
  refine ⟨?_, ?_⟩
  · intro ρ _ req eng opts h
    rw [create_call_eq req eng opts h]
    exact ⟨rfl, rfl, rfl⟩
  · intro ρ _ eng
    refine ⟨?_, ?_⟩
    · intro opts h
      rw [create_call_eq _ eng opts h]
      constructor
      · simp only [createOptions, Option.some.injEq, List.cons.injEq, true_and, and_true]
        decide
      · simp only [createOptions, List.cons.injEq, and_true]
        decide
    · intro opts h
      obtain ⟨img, c, -, -, -, -, -, -, rfl⟩ := commit_call_eq _ eng opts h
      constructor
      · show (Split "app:v1".toList ':').getD 0 [] = "app".toList
        decide
      · show (Split "app:v1".toList ':').getD 1 [] = "v1".toList
        decide

/-- C5 on the sample run: the create and commit calls are reached, with these
arguments. -/
theorem create_container_options_witness :
    Call.CreateContainer (createOptions sampleRequest) ∈
        (main sampleRequest engineOK).calls ∧
      ((createOptions sampleRequest : CreateContainerOptions Nat).Config.User =
          "root".toList ∧
        (createOptions sampleRequest : CreateContainerOptions Nat).Config.Image =
          sampleRequest.image ∧
        (createOptions sampleRequest : CreateContainerOptions Nat).Config.Entrypoint =
          some [sampleRequest.cp, "-v".toList,
            Join ["/var/copy-to-image".toList, sampleRequest.dest], sampleRequest.dest]) :=
  ⟨by decide, create_container_options.1 sampleRequest engineOK
    (createOptions sampleRequest) (by decide)⟩

/-- C6: when commit-container succeeded and remove-container fails, the exit status is
0; the failure shows only as the last printed line, remove-container is the last engine
operation, and whatever remove-container answers the status stays 0 and the engine
operations invoked, the commit among them, are the same. -/
theorem removal_failure_is_not_fatal {ρ : Type} [Inhabited ρ] (req : Request)
    (eng : Engine ρ) (opts : CommitContainerOptions ρ) (newImage : Image ρ) (err : Err)
    (hcall : Call.CommitContainer opts ∈ (main req eng).calls)
    (hcommit : eng.CommitContainer opts = .ok newImage)
    (hremove : eng.RemoveContainer ⟨opts.Container⟩ = .error err) :
    (main req eng).status = 0 ∧
    (main req eng).stdout.getLast? = some (Msg.errorRemoving err) ∧
    (main req eng).calls.getLast? = some (Call.RemoveContainer ⟨opts.Container⟩) ∧
    ∀ r : RemoveContainerOptions → Except Err Unit,
      (main req { eng with RemoveContainer := r }).status = 0 ∧
      (main req { eng with RemoveContainer := r }).calls = (main req eng).calls := by
  obtain ⟨img, c, hv, e1, e2, e3, e4, e5, rfl⟩ := commit_call_eq req eng opts hcall
  have key : ∀ eng2 : Engine ρ, eng2.NewClient = eng.NewClient →
      eng2.InspectImage = eng.InspectImage → eng2.CreateContainer = eng.CreateContainer →
      eng2.StartContainer = eng.StartContainer → eng2.WaitContainer = eng.WaitContainer →
      eng2.CommitContainer = eng.CommitContainer →
      (main req eng2).status = 0 ∧
      (main req eng2).calls = [.NewClient endpoint, .InspectImage req.image,
          .CreateContainer (createOptions req), .StartContainer c.ID, .WaitContainer c.ID,
          .CommitContainer ⟨c.ID, (Split req.image ':').getD 0 [],
            (Split req.image ':').getD 1 [], normalizeEntrypoint img.Config⟩,
          .RemoveContainer ⟨c.ID⟩] ∧
      (∀ err2, eng2.RemoveContainer ⟨c.ID⟩ = .error err2 →
        (main req eng2).stdout.getLast? = some (Msg.errorRemoving err2)) := by
    intro eng2 g1 g2 g3 g4 g5 g6
    rcases main_paths req eng2 hv with
      ⟨_, f1, _⟩ | ⟨_, _, f2, _⟩ | ⟨_, _, _, _, f3, _⟩ | ⟨_, c2, _, _, _, f3, f4, _⟩ |
      ⟨_, c2, _, _, _, f3, _, f5, _⟩ | ⟨_, c2, _, _, _, f3, _, f5, hrc, _⟩ |
      ⟨img2, c2, o, _, _, f2, f3, _, _, f6, f7, _⟩ |
      ⟨img2, c2, o, _, err3, _, f2, f3, _, _, f6, _, f8, e⟩ |
      ⟨img2, c2, o, _, _, f2, f3, _, _, f6, _, f8, e⟩
    · rw [g1, e1] at f1; cases f1
    · rw [g2, e2] at f2; cases f2
    · rw [g3, e3] at f3; cases f3
    · rw [g3, e3] at f3; cases f3; rw [g4, e4] at f4; cases f4
    · rw [g3, e3] at f3; cases f3; rw [g5, e5] at f5; cases f5
    · rw [g3, e3] at f3; cases f3; rw [g5, e5] at f5; cases f5; exact absurd rfl hrc
    · rw [g2, e2] at f2; cases f2; rw [g3, e3] at f3; cases f3
      subst f6; rw [g6, hcommit] at f7; cases f7
    · rw [g2, e2] at f2; cases f2; rw [g3, e3] at f3; cases f3
      subst f6
      refine ⟨by rw [e], by rw [e], ?_⟩
      intro err2 h2
      rw [f8] at h2; cases h2
      rw [e]; rfl
    · rw [g2, e2] at f2; cases f2; rw [g3, e3] at f3; cases f3
      subst f6
      refine ⟨by rw [e], by rw [e], ?_⟩
      intro err2 h2
      rw [f8] at h2; cases h2
  obtain ⟨k1, k2, k3⟩ := key eng rfl rfl rfl rfl rfl rfl
  refine ⟨k1, k3 err hremove, by rw [k2]; rfl, ?_⟩
  intro r
  obtain ⟨m1, m2, -⟩ := key { eng with RemoveContainer := r } rfl rfl rfl rfl rfl rfl
  exact ⟨m1, by rw [m2, k2]⟩

/-- C6 on the sample run with an engine that cannot remove the container. -/
theorem removal_failure_is_not_fatal_witness :
    (main sampleRequest engineRemoveFails).status = 0 ∧
    (main sampleRequest engineRemoveFails).stdout.getLast? =
      some (Msg.errorRemoving "busy".toList) ∧
    (main sampleRequest engineRemoveFails).calls.getLast? =
      some (Call.RemoveContainer ⟨"c0".toList⟩) ∧
    ∀ r : RemoveContainerOptions → Except Err Unit,
      (main sampleRequest { engineRemoveFails with RemoveContainer := r }).status = 0 ∧
      (main sampleRequest { engineRemoveFails with RemoveContainer := r }).calls =
        (main sampleRequest engineRemoveFails).calls :=
  removal_failure_is_not_fatal sampleRequest engineRemoveFails
    ⟨"c0".toList, "app".toList, "v1".toList, { sampleConfig with Entrypoint := some [] }⟩
    ⟨"img1".toList, { sampleConfig with Entrypoint := some [] }⟩ "busy".toList
    (by decide) rfl rfl

/-- C7, refuted as stated: on the sample request with an engine that creates the
container but cannot start it, create-container succeeded and remove-container is never
invoked; the run ends with status 1 and leaves the container behind. -/
theorem removal_skipped_when_start_fails :
    Call.CreateContainer (createOptions sampleRequest) ∈
        (main sampleRequest engineStartFails).calls ∧
      engineStartFails.CreateContainer (createOptions sampleRequest) =
        .ok ⟨"c0".toList⟩ ∧
      (main sampleRequest engineStartFails).calls.count
        (Call.RemoveContainer ⟨"c0".toList⟩) = 0 ∧
      (∀ k ∈ (main sampleRequest engineStartFails).calls, k.op ≠ Op.remove) ∧
      (main sampleRequest engineStartFails).status = 1 := by
  refine ⟨by decide, rfl, by decide, by decide, by decide⟩

/-- C7, amended: in a run in which create-container succeeded, remove-container is
invoked exactly once, on that container and as the last operation, when commit-container
was invoked and succeeded; when it was not (start or wait failed, the copy exited
non-zero, or commit failed) remove-container is not invoked at all. -/
theorem removal_only_after_commit {ρ : Type} [Inhabited ρ] (req : Request)
    (eng : Engine ρ) (c : Container)
    (hcall : Call.CreateContainer (createOptions req) ∈ (main req eng).calls)
    (hcreate : eng.CreateContainer (createOptions req) = .ok c) :
    ((∃ opts newImage, Call.CommitContainer opts ∈ (main req eng).calls ∧
        eng.CommitContainer opts = .ok newImage) →
      (main req eng).calls.filter (fun k => k.op = Op.remove) =
          [Call.RemoveContainer ⟨c.ID⟩] ∧
        (main req eng).calls.getLast? = some (Call.RemoveContainer ⟨c.ID⟩)) ∧
    ((¬ ∃ opts newImage, Call.CommitContainer opts ∈ (main req eng).calls ∧
        eng.CommitContainer opts = .ok newImage) →
      (∀ k ∈ (main req eng).calls, k.op ≠ Op.remove) ∧ (main req eng).status ≠ 0) := by
  have hv : req.valid := by
    by_contra hv
    rw [(main_of_not_valid req eng hv).2] at hcall
    simp at hcall
  rcases main_paths req eng hv with
    ⟨_, _, e⟩ | ⟨_, _, _, e⟩ | ⟨_, _, _, _, f3, e⟩ | ⟨_, c2, _, _, _, f3, _, e⟩ |
    ⟨_, c2, _, _, _, f3, _, _, e⟩ | ⟨_, c2, _, _, _, f3, _, _, _, e⟩ |
    ⟨_, c2, o, _, _, _, f3, _, _, _, f7, e⟩ |
    ⟨_, c2, o, _, _, _, _, f3, _, _, _, f7, _, e⟩ |
    ⟨_, c2, o, _, _, _, f3, _, _, _, f7, _, e⟩
  · rw [e] at hcall; simp at hcall
  · rw [e] at hcall; simp at hcall
  · rw [hcreate] at f3; cases f3
  · rw [e]; simp [Call.op]
  · rw [e]; simp [Call.op]
  · rw [e]; simp [Call.op]
  · rw [e]
    refine ⟨?_, ?_⟩
    · rintro ⟨opts, ni, hm, hok⟩
      simp at hm
      subst hm
      rw [f7] at hok; cases hok
    · intro _; simp [Call.op]
  · rw [hcreate] at f3; cases f3
    rw [e]
    refine ⟨?_, ?_⟩
    · intro _; simp [Call.op, List.filter]
    · intro hn
      exact absurd ⟨o, _, by simp, f7⟩ hn
  · rw [hcreate] at f3; cases f3
    rw [e]
    refine ⟨?_, ?_⟩
    · intro _; simp [Call.op, List.filter]
    · intro hn
      exact absurd ⟨o, _, by simp, f7⟩ hn

/-- C7 amended, on the sample run that succeeds and on the one whose start fails. -/
theorem removal_only_after_commit_witness :
    ((main sampleRequest engineOK).calls.filter (fun k => k.op = Op.remove) =
          [Call.RemoveContainer ⟨"c0".toList⟩] ∧
        (main sampleRequest engineOK).calls.getLast? =
          some (Call.RemoveContainer ⟨"c0".toList⟩)) ∧
    ((∀ k ∈ (main sampleRequest engineStartFails).calls, k.op ≠ Op.remove) ∧
      (main sampleRequest engineStartFails).status ≠ 0) :=
  ⟨(removal_only_after_commit sampleRequest engineOK ⟨"c0".toList⟩ (by decide) rfl).1
      ⟨⟨"c0".toList, "app".toList, "v1".toList,
        { sampleConfig with Entrypoint := some [] }⟩, _, by decide, rfl⟩,
   (removal_only_after_commit sampleRequest engineStartFails ⟨"c0".toList⟩
      (by decide) rfl).2 (by
        rintro ⟨opts, ni, hm, -⟩
        have h : ∀ k ∈ (main sampleRequest engineStartFails).calls, k.op ≠ Op.commit := by
          decide
        exact h _ hm rfl)⟩

/-- C8, refuted as stated: with an empty `-cp` the sample request passes validation and
the whole workflow runs, engine operations included, although one of the four string
fields is empty. -/
theorem empty_cp_passes_validation :
    ({ sampleRequest with cp := [] } : Request).cp = [] ∧
      (main { sampleRequest with cp := [] } engineOK).calls ≠ [] ∧
      Call.CreateContainer (createOptions { sampleRequest with cp := [] }) ∈
        (main { sampleRequest with cp := [] } engineOK).calls ∧
      (main { sampleRequest with cp := [] } engineOK).status = 0 := by
  refine ⟨rfl, by decide, by decide, by decide⟩

/-- C8, amended: when a run invokes any engine operation, the image reference, the
source path and the destination path are non-empty, and the image reference is a
repository and a tag, neither containing `:`, separated by a single `:`; the path of the
copy utility is not checked. -/
theorem request_invariant {ρ : Type} [Inhabited ρ] (req : Request) (eng : Engine ρ)
    (h : (main req eng).calls ≠ []) :
    req.image ≠ [] ∧ req.src ≠ [] ∧ req.dest ≠ [] ∧
    ∃ repo tag : Str, req.image = repo ++ ":".toList ++ tag ∧ ':' ∉ repo ∧ ':' ∉ tag ∧
      Split req.image ':' = [repo, tag] ∧ req.image.count ':' = 1 := by
  have hv : req.valid := by
    by_contra hv
    exact h (main_of_not_valid req eng hv).2
  obtain ⟨h1, h2, h3, h4⟩ := hv
  obtain ⟨e1, e2, e3, e4⟩ := Split_two req.image ':' h4
  refine ⟨h1, h2, h3, _, _, ?_, List.count_eq_zero.mp e2, List.count_eq_zero.mp e3, e4, ?_⟩
  · simpa using e1
  · have := Split_length req.image ':'
    omega

/-- C8 amended, on the sample run. -/
theorem request_invariant_witness :
    (main sampleRequest engineOK).calls ≠ [] ∧
    (sampleRequest.image ≠ [] ∧ sampleRequest.src ≠ [] ∧ sampleRequest.dest ≠ [] ∧
    ∃ repo tag : Str, sampleRequest.image = repo ++ ":".toList ++ tag ∧ ':' ∉ repo ∧
      ':' ∉ tag ∧ Split sampleRequest.image ':' = [repo, tag] ∧
      sampleRequest.image.count ':' = 1) :=
  ⟨by decide, request_invariant sampleRequest engineOK (by decide)⟩

/-- C9: on a valid request, whatever the engine answers, the operations invoked are the
connection followed by a prefix of inspect, create, start, wait, commit, remove, each at
most once; and when an invoked operation among connect, inspect, create, start, wait and
commit fails, or the wait reports a non-zero exit code, that operation is the last one
invoked and the exit status is non-zero. -/
theorem calls_follow_fixed_sequence {ρ : Type} [Inhabited ρ] (req : Request)
    (eng : Engine ρ) (hv : req.valid) :
    (∃ p, p <+: [Op.inspect, Op.create, Op.start, Op.wait, Op.commit, Op.remove] ∧
      (main req eng).calls.map Call.op = Op.connect :: p) ∧
    ((main req eng).calls.map Call.op).Nodup ∧
    ∀ k ∈ (main req eng).calls, eng.fails k = true →
      (main req eng).calls.getLast? = some k ∧ (main req eng).status ≠ 0 := by
  rcases main_paths req eng hv with
    ⟨_, f1, e⟩ | ⟨_, f1, f2, e⟩ | ⟨_, _, f1, f2, f3, e⟩ | ⟨_, c, _, f1, f2, f3, f4, e⟩ |
    ⟨_, c, _, f1, f2, f3, f4, f5, e⟩ | ⟨_, c, _, f1, f2, f3, f4, f5, hrc, e⟩ |
    ⟨_, c, o, _, f1, f2, f3, f4, f5, f6, f7, e⟩ |
    ⟨_, c, o, _, _, f1, f2, f3, f4, f5, f6, f7, f8, e⟩ |
    ⟨_, c, o, _, f1, f2, f3, f4, f5, f6, f7, f8, e⟩
  all_goals rw [e]
  all_goals refine ⟨⟨_, ?_, rfl⟩, by simp [Call.op], ?_⟩
  all_goals first
    | exact List.nil_prefix
    | exact ⟨_, rfl⟩
    | skip
  all_goals try clear f6
  all_goals simp [Engine.fails, Except.toBool, *]

/-- C9 on the sample request, with an engine whose copy exits non-zero. -/
theorem calls_follow_fixed_sequence_witness :
    (∃ p, p <+: [Op.inspect, Op.create, Op.start, Op.wait, Op.commit, Op.remove] ∧
      (main sampleRequest engineCopyFails).calls.map Call.op = Op.connect :: p) ∧
    ((main sampleRequest engineCopyFails).calls.map Call.op).Nodup ∧
    ∀ k ∈ (main sampleRequest engineCopyFails).calls, engineCopyFails.fails k = true →
      (main sampleRequest engineCopyFails).calls.getLast? = some k ∧
        (main sampleRequest engineCopyFails).status ≠ 0 :=
  calls_follow_fixed_sequence sampleRequest engineCopyFails (by decide)

/-- C10, refuted as stated: for the non-empty destinations `../../etc/passwd`, `..` and
`/` the stage path is `/etc/passwd`, `/var` and `/var/copy-to-image`; none of them starts
with `/var/copy-to-image/`. -/
theorem stage_path_leaves_root :
    "../../etc/passwd".toList ≠ [] ∧
      tempDest "../../etc/passwd".toList = "/etc/passwd".toList ∧
      ¬ ("/var/copy-to-image/".toList <+: tempDest "../../etc/passwd".toList) ∧
      tempDest "..".toList = "/var".toList ∧
      ¬ ("/var/copy-to-image/".toList <+: tempDest "..".toList) ∧
      tempDest "/".toList = "/var/copy-to-image".toList ∧
      ¬ ("/var/copy-to-image/".toList <+: tempDest "/".toList) := by
  refine ⟨by decide, by decide, by decide, by decide, by decide, by decide, by decide⟩

/-- C10, amended: with the destination's components being the non-empty parts between
its slashes, the stage path is their lexical resolution against `/var/copy-to-image`:
`.` is dropped and `..` removes the component before it, those of the fixed root
included.  For a destination without a `..` component the stage path
is the fixed root followed by a slash and a component, for each remaining component in
order; it then starts with `/var/copy-to-image/` when a component other than `.`
exists. -/
theorem stage_path_resolution (dest : Str) :
    components dest = (Split dest '/').filter (fun s => s ≠ []) ∧
    tempDest dest =
      render (resolve ["var".toList, "copy-to-image".toList] (components dest)) ∧
    ("..".toList ∉ components dest →
      tempDest dest = "/var/copy-to-image".toList ++
        ((components dest).filter (fun s => s ≠ ".".toList)).flatMap (fun s => '/' :: s) ∧
      ((∃ s ∈ components dest, s ≠ ".".toList) →
        "/var/copy-to-image/".toList <+: tempDest dest)) := by
  refine ⟨components_eq_Split dest, tempDest_eq_render dest, ?_⟩
  intro h
  have e : tempDest dest = "/var/copy-to-image".toList ++
      ((components dest).filter (fun s => s ≠ ".".toList)).flatMap (fun s => '/' :: s) := by
    rw [tempDest_eq_render, resolve_no_dotdot _ _ h]
    simp [render]
  refine ⟨e, ?_⟩
  rintro ⟨s, hs, hne⟩
  have hm : s ∈ (components dest).filter (fun s => s ≠ ".".toList) := by
    simp only [List.mem_filter, hs, true_and, decide_eq_true_eq]
    exact hne
  rw [e]
  cases hf : (components dest).filter (fun s => s ≠ ".".toList) with
  | nil => rw [hf] at hm; simp at hm
  | cons a t =>
    refine ⟨a ++ t.flatMap (fun s => '/' :: s), ?_⟩
    simp

/-- C10 amended, on a destination with repeated and trailing slashes and a `.`. -/
theorem stage_path_resolution_witness :
    "..".toList ∉ components "usr//local/./bin/".toList ∧
    tempDest "usr//local/./bin/".toList = "/var/copy-to-image/usr/local/bin".toList ∧
    "/var/copy-to-image/".toList <+: tempDest "usr//local/./bin/".toList :=
  ⟨by decide,
   (((stage_path_resolution "usr//local/./bin/".toList).2.2 (by decide)).1).trans
     (by decide),
   ((stage_path_resolution "usr//local/./bin/".toList).2.2 (by decide)).2
     ⟨"usr".toList, by decide, by decide⟩⟩


end CopyToImage
